import Mathlib

/-!
Verification of the vector indexing and aggregation engine of the
`betterdocs` repository (Scripts/build_ann_index.py,
Scripts/pdf_to_bin_inline_ann.py, Scripts/bin_to_routing_with_semantic_labels.py,
Scripts/routing.py) against its natural-language specification.

The numeric model: float32 values that the scripts manipulate are embedded
as exact rationals (`ℚ`) wherever the code only adds, multiplies, divides
and compares them (the k-NN graph builder and the quantizer), and as real
numbers (`ℝ`) where the code takes square roots (`np.linalg.norm`,
`l2_normalize`).  Exact arithmetic is the intended reading of the spec's
tolerance phrases ("within floating tolerance", "+ ε").
-/

namespace BetterDocs

/-! ### Graph builder: `chunked_knn_graph`

Source (Scripts/build_ann_index.py, lines 47-78; an identical copy lives in
Scripts/pdf_to_bin_inline_ann.py, lines 158-181):

```
n, _ = vectors.shape
neighbors = np.full((n, m), -1, dtype=np.int32)
for start in range(0, n, block_size):
    end = min(start + block_size, n)
    block = vectors[start:end]
    sims = block @ vectors.T
    for r in range(row_count):
        sims[r, start + r] = -np.inf  # exclude self
    top_k = min(m, n - 1)
    if top_k <= 0:
        continue
    idx_part = np.argpartition(sims, -top_k, axis=1)[:, -top_k:]
    part_scores = np.take_along_axis(sims, idx_part, axis=1)
    order = np.argsort(part_scores, axis=1)[:, ::-1]
    sorted_idx = np.take_along_axis(idx_part, order, axis=1).astype(np.int32)
    neighbors[start:end, :top_k] = sorted_idx
return neighbors
```

Modelling notes.
* Row `start + r` of `block @ vectors.T` equals row `start + r` of the full
  similarity matrix `vectors @ vectors.T`, every global row is covered by
  exactly one block, and each output row depends only on its own similarity
  row, so the block decomposition does not affect the result; `block_size`
  is kept in the signature but the rows are modelled directly.
* Similarity entries live in `WithBot ℚ`: `⊥` models the `-np.inf` written
  over the self-similarity (no other entry can be `-inf`, since inputs are
  finite).
* The composite `argpartition … [:, -top_k:]` / `argsort … [:, ::-1]` /
  `take_along_axis` selection sorts each row's candidates by descending
  similarity; the relative order of candidates with exactly EQUAL
  similarity is not specified by the source (`np.argpartition` leaves the
  order of its output unspecified, and `np.argsort`'s default quicksort is
  unstable), so the model fixes one admissible determinization — equal
  scores ordered by descending column index — to make the selection a
  function.  The general theorems below assert of the source only
  tie-insensitive properties (descending similarity order, row lengths and
  non-`-1` counts, self exclusion, validity and distinctness of entries),
  all of which hold under every tie resolution; the stipulated tie order
  itself is used only to evaluate the model at the concrete counterexample
  input for C1, a 3-element row where NumPy's small-array selection and
  insertion-sort code paths produce the same order.
-/

/-- Dot product of two rows (`block @ vectors.T` entry). -/
def dot (u v : List ℚ) : ℚ := (List.zipWith (· * ·) u v).sum

/-- Row `i` of the similarity matrix after the self-exclusion write
`sims[r, start + r] = -np.inf`; `⊥` is `-inf`. -/
def simRow (vectors : List (List ℚ)) (i : ℕ) : ℕ → WithBot ℚ :=
  fun j => if j = i then ⊥ else ((dot (vectors.getD i []) (vectors.getD j [])) : ℚ)

/-- Ranking relation: `nbrRel score j k` holds when column `j` is ranked no
later than column `k`: strictly larger similarity first; exact ties are
ordered by larger column index first — a determinization fixed by the
model to make the selection a function, not a guarantee of the unstable
numpy composite (see the modelling notes above). -/
def nbrRel (score : ℕ → WithBot ℚ) (j k : ℕ) : Prop :=
  score k < score j ∨ (score j = score k ∧ k ≤ j)

instance (score : ℕ → WithBot ℚ) : DecidableRel (nbrRel score) := fun j k =>
  decidable_of_iff (score k < score j ∨ (score j = score k ∧ k ≤ j)) Iff.rfl

instance (score : ℕ → WithBot ℚ) : IsTotal ℕ (nbrRel score) := by
  constructor
  intro j k
  rcases lt_trichotomy (score j) (score k) with h | h | h
  · exact Or.inr (Or.inl h)
  · rcases le_total j k with hjk | hjk
    · exact Or.inr (Or.inr ⟨h.symm, hjk⟩)
    · exact Or.inl (Or.inr ⟨h, hjk⟩)
  · exact Or.inl (Or.inl h)

instance (score : ℕ → WithBot ℚ) : IsTrans ℕ (nbrRel score) := by
  constructor
  intro a b c hab hbc
  rcases hab with h1 | ⟨e1, l1⟩
  · rcases hbc with h2 | ⟨e2, l2⟩
    · exact Or.inl (h2.trans h1)
    · exact Or.inl (e2 ▸ h1)
  · rcases hbc with h2 | ⟨e2, l2⟩
    · exact Or.inl (e1 ▸ h2)
    · exact Or.inr ⟨e1.trans e2, l2.trans l1⟩

/-- All column indices of row `i`, sorted by descending similarity, under
the model's fixed tie determinization (see the modelling notes above). -/
def sortedIdx (vectors : List (List ℚ)) (i : ℕ) : List ℕ :=
  List.insertionSort (nbrRel (simRow vectors i)) (List.range vectors.length)

/-- The `top_k = min(m, n-1)` selected column indices of row `i`, in the
order they are stored in `neighbors[i, :top_k]`. -/
def rowEntries (vectors : List (List ℚ)) (m i : ℕ) : List ℕ :=
  (sortedIdx vectors i).take (min m (vectors.length - 1))

/-- Row `i` of the returned `neighbors` array: the selected indices
followed by the untouched `-1` fill of `np.full((n, m), -1)`. -/
def knnRow (vectors : List (List ℚ)) (m i : ℕ) : List ℤ :=
  (rowEntries vectors m i).map (Nat.cast : ℕ → ℤ) ++
    List.replicate (m - min m (vectors.length - 1)) (-1)

/-- Model of `chunked_knn_graph(vectors, m, block_size)`: the `[N, m]` int32
neighbor array, one row per input vector. -/
def chunked_knn_graph (vectors : List (List ℚ)) (m : ℕ)
    (block_size : ℕ := 512) : List (List ℤ) :=
  (List.range vectors.length).map (knnRow vectors m)

/-- The worked example of spec §8 Scenario A: three unit vectors in 2D. -/
def exVecs : List (List ℚ) := [[1,0],[0,1],[-1,0]]

theorem graph_exVecs_eval : chunked_knn_graph exVecs 4 512 =
    [[1,2,-1,-1],[2,0,-1,-1],[1,0,-1,-1]] := by
  norm_num [exVecs, chunked_knn_graph, knnRow, rowEntries, sortedIdx, List.insertionSort,
    List.orderedInsert, nbrRel, simRow, dot, List.range_succ, List.replicate,
    bot_lt_iff_ne_bot]

theorem sortedIdx_perm (vectors : List (List ℚ)) (i : ℕ) :
    List.Perm (sortedIdx vectors i) (List.range vectors.length) :=
  List.perm_insertionSort _ _

theorem sortedIdx_nodup (vectors : List (List ℚ)) (i : ℕ) :
    (sortedIdx vectors i).Nodup :=
  (sortedIdx_perm vectors i).nodup_iff.mpr (List.nodup_range _)

theorem sortedIdx_length (vectors : List (List ℚ)) (i : ℕ) :
    (sortedIdx vectors i).length = vectors.length := by
  simpa using (sortedIdx_perm vectors i).length_eq

theorem mem_sortedIdx {vectors : List (List ℚ)} {i j : ℕ} :
    j ∈ sortedIdx vectors i ↔ j < vectors.length := by
  rw [(sortedIdx_perm vectors i).mem_iff, List.mem_range]

theorem sortedIdx_sorted (vectors : List (List ℚ)) (i : ℕ) :
    List.Sorted (nbrRel (simRow vectors i)) (sortedIdx vectors i) :=
  List.sorted_insertionSort _ _

theorem rowEntries_sublist (vectors : List (List ℚ)) (m i : ℕ) :
    List.Sublist (rowEntries vectors m i) (sortedIdx vectors i) :=
  List.take_sublist _ _

theorem rowEntries_nodup (vectors : List (List ℚ)) (m i : ℕ) :
    (rowEntries vectors m i).Nodup :=
  (sortedIdx_nodup vectors i).sublist (rowEntries_sublist vectors m i)

/-- The stored slots of row `i` are pairwise ordered: non-increasing
similarity, and on an exact similarity tie the larger column index comes
first. -/
theorem rowEntries_pairwise (vectors : List (List ℚ)) (m i : ℕ) :
    List.Pairwise (fun j k => simRow vectors i k ≤ simRow vectors i j ∧
      (simRow vectors i j = simRow vectors i k → k < j)) (rowEntries vectors m i) := by
  have hs := sortedIdx_sorted vectors i
  have hn := sortedIdx_nodup vectors i
  have hcomb := hs.and hn
  refine ((hcomb.sublist (rowEntries_sublist vectors m i)).imp ?_)
  rintro j k ⟨hrel, hne⟩
  rcases hrel with hlt | ⟨heq, hle⟩
  · exact ⟨hlt.le, fun h => absurd hlt (h ▸ lt_irrefl _)⟩
  · exact ⟨le_of_eq heq.symm, fun _ => lt_of_le_of_ne hle (Ne.symm hne)⟩

/-- In a sorted list with no duplicates, an element that every distinct
member beats cannot occur in a proper prefix. -/
theorem not_mem_take_of_sorted {α : Type} {r : α → α → Prop} {l : List α}
    (hs : l.Pairwise r) (hn : l.Nodup) {x : α}
    (hx : ∀ y ∈ l, y ≠ x → ¬ r x y) {k : ℕ} (hk : k < l.length) :
    x ∉ l.take k := by
  intro hmem
  have hsplit : l = l.take k ++ l.drop k := (List.take_append_drop k l).symm
  have hdrop : l.drop k ≠ [] := by
    intro h
    have := List.length_drop k l
    rw [h] at this
    simp at this
    omega
  obtain ⟨y, hy⟩ := List.exists_mem_of_ne_nil _ hdrop
  have hsApp := hsplit ▸ hs
  have hnApp := hsplit ▸ hn
  have hrxy : r x y := (List.pairwise_append.mp hsApp).2.2 x hmem y hy
  have hxy : x ≠ y := (List.pairwise_append.mp hnApp).2.2 x hmem y hy
  have hyl : y ∈ l := hsplit ▸ List.mem_append_right _ hy
  exact hx y hyl (Ne.symm hxy) hrxy

/-- Column `i` itself (whose similarity was overwritten with `-inf`) is
never among the selected entries of row `i`. -/
theorem self_not_mem_rowEntries {vectors : List (List ℚ)} {m i : ℕ}
    (hi : i < vectors.length) : i ∉ rowEntries vectors m i := by
  have hx : ∀ y ∈ sortedIdx vectors i, y ≠ i → ¬ nbrRel (simRow vectors i) i y := by
    intro y _ hy hrel
    have hsi : simRow vectors i i = ⊥ := by simp [simRow]
    have hsy : simRow vectors i y =
        ((dot (vectors.getD i []) (vectors.getD y [])) : ℚ) := by
      simp [simRow, hy]
    rcases hrel with hlt | ⟨heq, _⟩
    · rw [hsi] at hlt
      exact absurd hlt (not_lt_bot)
    · rw [hsi, hsy] at heq
      exact WithBot.bot_ne_coe heq
  have hk : min m (vectors.length - 1) < (sortedIdx vectors i).length := by
    rw [sortedIdx_length]
    omega
  exact not_mem_take_of_sorted (sortedIdx_sorted vectors i) (sortedIdx_nodup vectors i)
    hx hk

theorem graph_row {vectors : List (List ℚ)} {m bs i : ℕ} (hi : i < vectors.length) :
    (chunked_knn_graph vectors m bs).getD i [] = knnRow vectors m i := by
  unfold chunked_knn_graph
  rw [List.getD_eq_getElem?_getD, List.getElem?_map]
  simp [List.getElem?_range hi]

theorem graph_length (vectors : List (List ℚ)) (m bs : ℕ) :
    (chunked_knn_graph vectors m bs).length = vectors.length := by
  simp [chunked_knn_graph]

/-- C1 (amended).  For `N ≥ 2` normalized vectors, every row of
`chunked_knn_graph` stores its selected column indices in non-increasing
order of similarity to vector `i`, followed by the `-1` fill.  The order
of candidates with exactly equal similarity is left unspecified by the
code (the `argpartition`/`argsort` composite is unstable), so in
particular no lower-index-first tie-break holds — see the
counterexample. -/
theorem C1_thm (vectors : List (List ℚ)) (m i : ℕ)
    (hN : 2 ≤ vectors.length) (hi : i < vectors.length) :
    (∀ bs, (chunked_knn_graph vectors m bs).getD i [] =
      (rowEntries vectors m i).map (Nat.cast : ℕ → ℤ) ++
        List.replicate (m - min m (vectors.length - 1)) (-1)) ∧
    List.Pairwise (fun j k => simRow vectors i k ≤ simRow vectors i j)
      (rowEntries vectors m i) :=
  ⟨fun _ => graph_row hi, (rowEntries_pairwise vectors m i).imp fun h => h.1⟩

/-- C1 witness: the amended ordering instantiated on Scenario A's vectors. -/
theorem C1_thm_witness :
    (2 ≤ exVecs.length ∧ 0 < exVecs.length) ∧
    ((∀ bs, (chunked_knn_graph exVecs 4 bs).getD 0 [] =
      (rowEntries exVecs 4 0).map (Nat.cast : ℕ → ℤ) ++
        List.replicate (4 - min 4 (exVecs.length - 1)) (-1)) ∧
    List.Pairwise (fun j k => simRow exVecs 0 k ≤ simRow exVecs 0 j)
      (rowEntries exVecs 4 0)) :=
  ⟨by norm_num [exVecs], C1_thm exVecs 4 0 (by norm_num [exVecs]) (by norm_num [exVecs])⟩

/-- C1 counterexample.  On the Scenario A vectors, row 1 has two candidates
of exactly equal similarity (columns 0 and 2, both with similarity 0), and
the code stores them as `[2, 0]`: at this 3-element row NumPy's
introselect small-array loop leaves the tied columns in ascending order in
`idx_part` and the stable small-array argsort reversed by `[::-1]` flips
them, so the LOWER index is NOT placed first and the claim's tie-breaking
rule fails at this input. -/
theorem C1_cex :
    rowEntries exVecs 4 1 = [2, 0] ∧
    simRow exVecs 1 0 = simRow exVecs 1 2 ∧
    ¬ List.Pairwise (fun j k => simRow exVecs 1 j = simRow exVecs 1 k → j < k)
      (rowEntries exVecs 4 1) := by
  have h1 : rowEntries exVecs 4 1 = [2, 0] := by
    norm_num [exVecs, rowEntries, sortedIdx, List.insertionSort, List.orderedInsert,
      nbrRel, simRow, dot, List.range_succ, bot_lt_iff_ne_bot]
  have h2 : simRow exVecs 1 0 = simRow exVecs 1 2 := by
    norm_num [exVecs, simRow, dot]
  refine ⟨h1, h2, ?_⟩
  rw [h1]
  intro hp
  have h3 := (List.pairwise_cons.mp hp).1 0 (by simp)
  exact absurd (h3 h2.symm) (by omega)

/-- C6.  A node never appears in its own neighbor list: its self-similarity
is overwritten with `-inf`, so it is the unique minimum of its row and
`top_k ≤ n - 1` selection always drops it. -/
theorem C6_thm (vectors : List (List ℚ)) (m bs i : ℕ) (hi : i < vectors.length) :
    (i : ℤ) ∉ (chunked_knn_graph vectors m bs).getD i [] := by
  rw [graph_row hi]
  unfold knnRow
  intro hmem
  rcases List.mem_append.mp hmem with h | h
  · obtain ⟨j, hj, hje⟩ := List.mem_map.mp h
    have hji : j = i := by omega
    exact self_not_mem_rowEntries hi (hji ▸ hj)
  · have h1 := List.eq_of_mem_replicate h
    omega

/-- C6 witness: node 0 of Scenario A's graph does not list itself. -/
theorem C6_thm_witness :
    0 < exVecs.length ∧ ((0 : ℤ) ∉ (chunked_knn_graph exVecs 4 512).getD 0 []) :=
  ⟨by norm_num [exVecs], C6_thm exVecs 4 512 0 (by norm_num [exVecs])⟩

/-- C7.  Every row of the neighbor array has length exactly `m`, its number
of non-`-1` entries is `min m (N-1)`, and for `N ≤ 1` the row is all `-1`. -/
theorem C7_thm (vectors : List (List ℚ)) (m bs : ℕ) :
    ∀ row ∈ chunked_knn_graph vectors m bs,
      row.length = m ∧
      row.countP (fun z => decide (z ≠ -1)) = min m (vectors.length - 1) ∧
      (vectors.length ≤ 1 → row = List.replicate m (-1)) := by
  intro row hrow
  obtain ⟨i, hi, rfl⟩ := List.mem_map.mp hrow
  have hin : i < vectors.length := List.mem_range.mp hi
  have hlen : (rowEntries vectors m i).length = min m (vectors.length - 1) := by
    unfold rowEntries
    rw [List.length_take, sortedIdx_length]
    omega
  refine ⟨?_, ?_, ?_⟩
  · unfold knnRow
    rw [List.length_append, List.length_map, hlen, List.length_replicate]
    omega
  · unfold knnRow
    rw [List.countP_append]
    have hmapcnt : ((rowEntries vectors m i).map (Nat.cast : ℕ → ℤ)).countP
        (fun z => decide (z ≠ -1)) = min m (vectors.length - 1) := by
      rw [List.countP_eq_length.mpr, List.length_map, hlen]
      intro a ha
      obtain ⟨j, _, rfl⟩ := List.mem_map.mp ha
      simp only [decide_eq_true_eq]
      omega
    have hrepcnt : (List.replicate (m - min m (vectors.length - 1)) (-1 : ℤ)).countP
        (fun z => decide (z ≠ -1)) = 0 := by
      rw [List.countP_eq_zero]
      intro a ha
      rw [List.eq_of_mem_replicate ha]
      simp
    rw [hmapcnt, hrepcnt]
    omega
  · intro hN1
    have htk : min m (vectors.length - 1) = 0 := by omega
    unfold knnRow rowEntries
    rw [htk]
    simp

/-- C7 witness: row 0 of Scenario A's graph has length 4 and
`min 4 (3-1) = 2` non-`-1` entries. -/
theorem C7_thm_witness :
    (([1,2,-1,-1] : List ℤ) ∈ chunked_knn_graph exVecs 4 512) ∧
    (([1,2,-1,-1] : List ℤ).length = 4 ∧
      ([1,2,-1,-1] : List ℤ).countP (fun z => decide (z ≠ -1)) =
        min 4 (exVecs.length - 1) ∧
      (exVecs.length ≤ 1 → ([1,2,-1,-1] : List ℤ) = List.replicate 4 (-1))) :=
  ⟨by rw [graph_exVecs_eval]; simp,
   C7_thm exVecs 4 512 _ (by rw [graph_exVecs_eval]; simp)⟩

/-- C10.  Every non-`-1` neighbor entry is a valid node index in
`[0, N-1]`, and the non-`-1` entries of a row are pairwise distinct. -/
theorem C10_thm (vectors : List (List ℚ)) (m bs : ℕ) (hN : 2 ≤ vectors.length) :
    ∀ row ∈ chunked_knn_graph vectors m bs,
      (∀ z ∈ row, z ≠ -1 → 0 ≤ z ∧ z < (vectors.length : ℤ)) ∧
      (row.filter (fun z => decide (z ≠ -1))).Nodup := by
  intro row hrow
  obtain ⟨i, hi, rfl⟩ := List.mem_map.mp hrow
  constructor
  · intro z hz hz1
    rcases List.mem_append.mp hz with h | h
    · obtain ⟨j, hj, rfl⟩ := List.mem_map.mp h
      have hjn : j < vectors.length :=
        mem_sortedIdx.mp ((rowEntries_sublist vectors m i).subset hj)
      constructor
      · omega
      · omega
    · exact absurd (List.eq_of_mem_replicate h) hz1
  · unfold knnRow
    rw [List.filter_append]
    have hfmap : ((rowEntries vectors m i).map (Nat.cast : ℕ → ℤ)).filter
        (fun z => decide (z ≠ -1)) = (rowEntries vectors m i).map (Nat.cast : ℕ → ℤ) := by
      rw [List.filter_eq_self]
      intro a ha
      obtain ⟨j, _, rfl⟩ := List.mem_map.mp ha
      simp only [decide_eq_true_eq]
      omega
    have hfrep : (List.replicate (m - min m (vectors.length - 1)) (-1 : ℤ)).filter
        (fun z => decide (z ≠ -1)) = [] := by
      rw [List.filter_eq_nil_iff]
      intro a ha
      rw [List.eq_of_mem_replicate ha]
      simp
    rw [hfmap, hfrep, List.append_nil]
    exact (rowEntries_nodup vectors m i).map (fun a b hab => by omega)

/-! ### Quantizer: `build_binary` lines 90-92

Source (Scripts/build_ann_index.py; Scripts/pdf_to_bin_inline_ann.py
lines 188-191 is identical):

```
max_abs = float(np.max(np.abs(vectors)))
scale = max(max_abs / 127.0, 1e-8)
q_vectors = np.clip(np.rint(vectors / scale), -127, 127).astype(np.int8)
```

`np.rint` rounds half to even; the float literal `1e-8` is modelled as the
exact rational `1/10^8`. -/

/-- Sum of squares of the components (`norm**2`). -/
def sumSq {α : Type} [Semiring α] (v : List α) : α := (v.map (fun q => q * q)).sum

/-- Value of `float(np.max(np.abs(vectors)))` over the whole batch.  The fold base
`0` is never the maximum of a non-empty batch, since every entry of the
folded list is an absolute value; `np.max` of an empty array raises, which
the codec model below represents with `none`. -/
def maxAbs (vss : List (List ℚ)) : ℚ := (vss.flatten.map abs).foldr max 0

/-- The shared scale `scale = max(max_abs / 127.0, 1e-8)`. -/
def quantScale (vss : List (List ℚ)) : ℚ := max (maxAbs vss / 127) (1 / 100000000)

/-- Rounding of `np.rint`: round half to even. -/
def roundEven {α : Type} [LinearOrderedField α] [FloorRing α] (x : α) : ℤ :=
  if Int.fract x < 1/2 then ⌊x⌋
  else if 1/2 < Int.fract x then ⌊x⌋ + 1
  else if Even ⌊x⌋ then ⌊x⌋ else ⌊x⌋ + 1

/-- Clamp `np.clip(·, -127, 127)`. -/
def clip (z : ℤ) : ℤ := max (-127) (min z 127)

/-- Codes `np.clip(np.rint(vectors / scale), -127, 127)`, row by row. -/
def quantCodes (vss : List (List ℚ)) : List (List ℤ) :=
  vss.map (fun v => v.map (fun q => clip (roundEven (q / quantScale vss))))

/-- The scale formula exactly as the spec's §4.3 words state it
(`scale = max(max(|v_ij|), 1e-8) / 127.0`), kept separate from the
source-derived `quantScale` so the two can be compared. -/
def quantScaleSpec (vss : List (List ℚ)) : ℚ := max (maxAbs vss) (1 / 100000000) / 127

theorem le_foldr_max {l : List ℚ} {q : ℚ} (hq : q ∈ l) (b : ℚ) : q ≤ l.foldr max b := by
  induction l with
  | nil => cases hq
  | cons a t ih =>
    rcases List.mem_cons.mp hq with rfl | h
    · exact le_max_left _ _
    · exact le_trans (ih h) (le_max_right _ _)

theorem abs_le_maxAbs {vss : List (List ℚ)} {v : List ℚ} {q : ℚ}
    (hv : v ∈ vss) (hq : q ∈ v) : |q| ≤ maxAbs vss := by
  have hmem : |q| ∈ vss.flatten.map abs :=
    List.mem_map_of_mem _ (List.mem_flatten.mpr ⟨v, hv, hq⟩)
  exact le_foldr_max hmem 0

theorem quantScale_pos (vss : List (List ℚ)) : 0 < quantScale vss :=
  lt_of_lt_of_le (by norm_num) (le_max_right _ _)

/-- The rounding error of round-half-to-even is at most one half. -/
theorem abs_sub_roundEven_le {α : Type} [LinearOrderedField α] [FloorRing α]
    (x : α) : |x - (roundEven x : α)| ≤ 1/2 := by
  have h0 : 0 ≤ Int.fract x := Int.fract_nonneg x
  have h1 : Int.fract x < 1 := Int.fract_lt_one x
  have hfr : Int.fract x = x - (⌊x⌋ : α) := (Int.self_sub_floor x).symm
  unfold roundEven
  split_ifs with hlt hgt heven
  · rw [abs_le]
    constructor <;> push_cast <;> linarith
  · rw [abs_le]
    constructor <;> push_cast <;> linarith
  · have heq : Int.fract x = 1/2 := le_antisymm (not_lt.mp hgt) (not_lt.mp hlt)
    rw [abs_le]
    constructor <;> push_cast <;> linarith [heq ▸ hfr]
  · have heq : Int.fract x = 1/2 := le_antisymm (not_lt.mp hgt) (not_lt.mp hlt)
    rw [abs_le]
    constructor <;> push_cast <;> linarith [heq ▸ hfr]

/-- Round-half-to-even of a value within `[-127, 127]` stays in
`[-127, 127]`, so the clip is the identity there. -/
theorem roundEven_bounds {α : Type} [LinearOrderedField α] [FloorRing α]
    {x : α} (hx : |x| ≤ 127) : -127 ≤ roundEven x ∧ roundEven x ≤ 127 := by
  have hb := abs_sub_roundEven_le x
  rw [abs_le] at hb hx
  constructor
  · have hcast : (-128 : α) < (roundEven x : α) := by linarith
    have : (-128 : ℤ) < roundEven x := by exact_mod_cast hcast
    omega
  · have hcast : (roundEven x : α) < 128 := by linarith
    have : roundEven x < (128 : ℤ) := by exact_mod_cast hcast
    omega

theorem foldr_max_allZero {l : List ℚ} (h : ∀ x ∈ l, x = 0) : l.foldr max 0 = 0 := by
  induction l with
  | nil => rfl
  | cons a t ih =>
    have ha : a = 0 := h a (List.mem_cons_self a t)
    have ht := ih (fun x hx => h x (List.mem_cons_of_mem a hx))
    simp [ha, ht]

/-- C3 counterexample.  On the all-zero batch `[[0, 0]]` the code's scale is
`1e-8`, not the claim's `max(max|v|, 1e-8)/127 = 1e-8/127`. -/
theorem C3_cex :
    quantScale [[(0:ℚ), 0]] = 1/100000000 ∧
    quantScale [[(0:ℚ), 0]] ≠ quantScaleSpec [[(0:ℚ), 0]] := by
  norm_num [quantScale, quantScaleSpec, maxAbs]

/-- C3 (amended).  The quantizer computes
`scale = max(max(|v_ij|)/127, 1e-8)` — the `1e-8` floor is applied AFTER
dividing by 127 — and `code_ij = clip(rint(v_ij/scale), -127, 127)`.
An all-zero batch yields `scale = 1e-8`.  The claim's formula
`max(max|v|, 1e-8)/127` agrees with the code whenever
`max|v| ≥ 127e-8` (in particular for any batch containing a unit vector),
and disagrees below that threshold. -/
theorem C3_thm (vss : List (List ℚ)) (hne : vss ≠ []) :
    quantScale vss = max (maxAbs vss / 127) (1/100000000) ∧
    quantCodes vss = vss.map (fun v => v.map (fun q =>
      clip (roundEven (q / quantScale vss)))) ∧
    ((∀ v ∈ vss, ∀ q ∈ v, q = 0) → quantScale vss = 1/100000000) ∧
    (127/100000000 ≤ maxAbs vss → quantScale vss = quantScaleSpec vss) := by
  refine ⟨rfl, rfl, ?_, ?_⟩
  · intro hzero
    have hmax : maxAbs vss = 0 := by
      apply foldr_max_allZero
      intro x hx
      obtain ⟨q, hq, rfl⟩ := List.mem_map.mp hx
      obtain ⟨v, hv, hqv⟩ := List.mem_flatten.mp hq
      rw [hzero v hv q hqv]
      exact abs_zero
    rw [quantScale, hmax]
    norm_num
  · intro hbig
    rw [quantScale, quantScaleSpec]
    rw [max_eq_left (by linarith), max_eq_left (by linarith)]

/-- C3 witness: a batch holding one unit vector, where the amended formula
and the agreement condition are concrete. -/
theorem C3_thm_witness :
    ([[(1:ℚ), 0]] ≠ ([] : List (List ℚ))) ∧
    (quantScale [[(1:ℚ), 0]] = max (maxAbs [[(1:ℚ), 0]] / 127) (1/100000000) ∧
    quantCodes [[(1:ℚ), 0]] = [[(1:ℚ), 0]].map (fun v => v.map (fun q =>
      clip (roundEven (q / quantScale [[(1:ℚ), 0]])))) ∧
    ((∀ v ∈ [[(1:ℚ), 0]], ∀ q ∈ v, q = 0) → quantScale [[(1:ℚ), 0]] = 1/100000000) ∧
    (127/100000000 ≤ maxAbs [[(1:ℚ), 0]] →
      quantScale [[(1:ℚ), 0]] = quantScaleSpec [[(1:ℚ), 0]])) :=
  ⟨by simp, C3_thm [[(1:ℚ), 0]] (by simp)⟩

/-- C5.  For any vector of the batch (in particular any unit vector), each
derived code is the unclamped rounding (clipping is the identity, codes lie
in `[-127, 127]`) and the reconstruction error is at most `scale/2`
componentwise — with exact arithmetic the claim's `ε` is `0`. -/
theorem C5_thm (vss : List (List ℚ)) (v : List ℚ) (hv : v ∈ vss)
    (hunit : sumSq v = 1) :
    (v.map (fun q => clip (roundEven (q / quantScale vss)))) ∈ quantCodes vss ∧
    ∀ q ∈ v,
      clip (roundEven (q / quantScale vss)) = roundEven (q / quantScale vss) ∧
      -127 ≤ roundEven (q / quantScale vss) ∧
      roundEven (q / quantScale vss) ≤ 127 ∧
      |q - (roundEven (q / quantScale vss) : ℚ) * quantScale vss| ≤
        quantScale vss / 2 := by
  refine ⟨List.mem_map_of_mem _ hv, ?_⟩
  intro q hq
  set s := quantScale vss with hs
  have hspos : 0 < s := quantScale_pos vss
  have habs : |q| ≤ maxAbs vss := abs_le_maxAbs hv hq
  have hsge : maxAbs vss / 127 ≤ s := le_max_left _ _
  have hq127 : |q / s| ≤ 127 := by
    rw [abs_div, abs_of_pos hspos, div_le_iff₀ hspos]
    calc |q| ≤ maxAbs vss := habs
    _ = 127 * (maxAbs vss / 127) := by ring
    _ ≤ 127 * s := by linarith
  obtain ⟨hlow, hhigh⟩ := roundEven_bounds hq127
  have hclip : clip (roundEven (q / s)) = roundEven (q / s) := by
    unfold clip
    omega
  refine ⟨hclip, hlow, hhigh, ?_⟩
  have herr := abs_sub_roundEven_le (q / s)
  have hfactor : q - (roundEven (q / s) : ℚ) * s = (q / s - roundEven (q / s)) * s := by
    field_simp
    ring
  rw [hfactor, abs_mul, abs_of_pos hspos]
  calc |q / s - (roundEven (q / s) : ℚ)| * s ≤ (1/2) * s :=
        mul_le_mul_of_nonneg_right herr hspos.le
  _ = s / 2 := by ring

/-- C5 witness: the unit vector `[1, 0]` in the singleton batch. -/
theorem C5_thm_witness :
    (([(1:ℚ), 0] ∈ [[(1:ℚ), 0]]) ∧ sumSq [(1:ℚ), 0] = 1) ∧
    (([(1:ℚ), 0].map (fun q => clip (roundEven (q / quantScale [[(1:ℚ), 0]])))) ∈
        quantCodes [[(1:ℚ), 0]] ∧
    ∀ q ∈ [(1:ℚ), 0],
      clip (roundEven (q / quantScale [[(1:ℚ), 0]])) =
        roundEven (q / quantScale [[(1:ℚ), 0]]) ∧
      -127 ≤ roundEven (q / quantScale [[(1:ℚ), 0]]) ∧
      roundEven (q / quantScale [[(1:ℚ), 0]]) ≤ 127 ∧
      |q - (roundEven (q / quantScale [[(1:ℚ), 0]]) : ℚ) * quantScale [[(1:ℚ), 0]]| ≤
        quantScale [[(1:ℚ), 0]] / 2) :=
  ⟨⟨by simp, by norm_num [sumSq]⟩,
   C5_thm [[(1:ℚ), 0]] [(1:ℚ), 0] (by simp) (by norm_num [sumSq])⟩

/-! ### Artifact codec: `build_binary` (Scripts/build_ann_index.py 81-115)

```
n, dim = vectors.shape
m = neighbors.shape[1]
max_abs = float(np.max(np.abs(vectors)))
scale = max(max_abs / 127.0, 1e-8)
q_vectors = np.clip(np.rint(vectors / scale), -127, 127).astype(np.int8)
norms = np.linalg.norm(vectors, axis=1).astype(np.float32)
header = struct.pack("<8sIIIIIIf", MAGIC, VERSION, dim, n, m, entry, ef_search, scale)
payload = b"".join([header, q_vectors.tobytes("C"), norms.tobytes("C"),
                    neighbors.astype(np.int32).tobytes("C")])
```

The model represents the payload as a list of byte values.  `d` and `m`
stand for `vectors.shape[1]` and `neighbors.shape[1]`, which a list-based
model cannot read off an empty array.  `np.max` of an empty array raises
`ValueError`, so the fallible encoder returns `none` for an empty vector
batch.  Norms go through an IEEE-754 binary32 encoder (`f32bits`,
round-to-nearest-even) applied to the exact real value of
`np.linalg.norm`. -/

/-- Little-endian bytes of an unsigned 32-bit value. -/
def u32le (n : ℕ) : List ℕ := [n % 256, n / 256 % 256, n / 256 ^ 2 % 256, n / 256 ^ 3 % 256]

/-- Two's-complement byte of an int8 value. -/
def i8byte (z : ℤ) : ℕ := (z % 256).toNat

/-- Little-endian two's-complement bytes of an int32 value. -/
def i32le (z : ℤ) : List ℕ := u32le (z % 2 ^ 32).toNat

/-- Bytes of `MAGIC = b"HNSWANN1"`. -/
def magicBytes : List ℕ := [72, 78, 83, 87, 65, 78, 78, 49]

/-- IEEE-754 binary32 bit pattern of a real value, rounding to nearest
with ties to even; subnormals flush into the encodable range and overflow
saturates to infinity. -/
noncomputable def f32bits (x : ℝ) : ℕ :=
  if x = 0 then 0 else
  let s : ℕ := if x < 0 then 2 ^ 31 else 0
  let a := |x|
  let e : ℤ := Int.log 2 a
  if e < -126 then
    let mant := (roundEven (a * (2 : ℝ) ^ (149 : ℤ))).toNat
    if mant < 2 ^ 23 then s + mant else s + 2 ^ 23
  else if 127 < e then s + 255 * 2 ^ 23
  else
    let mant := (roundEven (a * (2 : ℝ) ^ (23 - e))).toNat
    if mant < 2 ^ 24 then s + (e + 127).toNat * 2 ^ 23 + (mant - 2 ^ 23)
    else if e = 127 then s + 255 * 2 ^ 23
    else s + (e + 128).toNat * 2 ^ 23

/-- Little-endian bytes of `np.float32(x)`. -/
noncomputable def f32le (x : ℝ) : List ℕ := u32le (f32bits x)

/-- Header `struct.pack("<8sIIIIIIf", MAGIC, VERSION, dim, n, m, entry,
ef_search, scale)`. -/
noncomputable def annHeader (d m n entry ef : ℕ) (scale : ℚ) : List ℕ :=
  magicBytes ++ u32le 1 ++ u32le d ++ u32le n ++ u32le m ++ u32le entry ++
    u32le ef ++ f32le ((scale : ℚ) : ℝ)

/-- Region `q_vectors.tobytes(order="C")`: the quantized codes row-major, one
signed byte each. -/
def qRegion (vectors : List (List ℚ)) : List ℕ :=
  (quantCodes vectors).flatten.map i8byte

/-- Region `norms.tobytes(order="C")`: one float32 per vector. -/
noncomputable def normRegion (vectors : List (List ℚ)) : List ℕ :=
  (vectors.map (fun v => f32le (Real.sqrt ((sumSq v : ℚ) : ℝ)))).flatten

/-- Region `neighbors.astype(np.int32).tobytes(order="C")`. -/
def nbrRegion (neighbors : List (List ℤ)) : List ℕ :=
  (neighbors.flatten.map i32le).flatten

/-- Model of `build_binary`, returning the payload bytes, or `none` when
`np.max(np.abs(vectors))` raises on a zero-size array. -/
noncomputable def build_binary (d m : ℕ) (vectors : List (List ℚ))
    (neighbors : List (List ℤ)) (entry ef_search : ℕ) : Option (List ℕ) :=
  if vectors = [] then none
  else some (annHeader d m vectors.length entry ef_search (quantScale vectors) ++
    qRegion vectors ++ normRegion vectors ++ nbrRegion neighbors)

theorem u32le_length (n : ℕ) : (u32le n).length = 4 := rfl

theorem f32le_length (x : ℝ) : (f32le x).length = 4 := rfl

theorem flatten_length_const {β : Type} {l : List (List β)} {d : ℕ}
    (h : ∀ v ∈ l, v.length = d) : l.flatten.length = l.length * d := by
  induction l with
  | nil => simp
  | cons a t ih =>
    rw [List.flatten_cons, List.length_append, h a (List.mem_cons_self a t),
      ih (fun v hv => h v (List.mem_cons_of_mem a hv)), List.length_cons]
    ring

theorem annHeader_length (d m n entry ef : ℕ) (scale : ℚ) :
    (annHeader d m n entry ef scale).length = 36 := by
  simp [annHeader, magicBytes, u32le, f32le]

/-- C4 counterexample.  For `node_count = 0` the encoder does not emit a
36-byte artifact with empty data regions: `np.max` of the empty array
raises, so no payload is produced at all. -/
theorem C4_cex : build_binary 2 4 [] [] 0 16 = none := rfl

/-- C4 (amended).  For every artifact with `N ≥ 1` nodes of dimension `d`
and out-degree `m`, the encoder emits exactly the 36-byte little-endian
header (magic, version 1, dim, node_count, m, entry, ef_search, scale)
followed by the `N·d` quantized bytes, the `4·N` norm bytes and the
`4·N·m` neighbor bytes, for a total of `36 + N·d + 4·N + 4·N·m`; for
`N = 0` the encoder fails instead of producing the three empty regions. -/
theorem C4_thm (d m : ℕ) (vectors : List (List ℚ)) (neighbors : List (List ℤ))
    (entry ef : ℕ) (hne : vectors ≠ [])
    (hd : ∀ v ∈ vectors, v.length = d) (hm : ∀ r ∈ neighbors, r.length = m)
    (hnm : neighbors.length = vectors.length) :
    build_binary d m vectors neighbors entry ef =
      some (annHeader d m vectors.length entry ef (quantScale vectors) ++
        qRegion vectors ++ normRegion vectors ++ nbrRegion neighbors) ∧
    (annHeader d m vectors.length entry ef (quantScale vectors)).length = 36 ∧
    (qRegion vectors).length = vectors.length * d ∧
    (normRegion vectors).length = vectors.length * 4 ∧
    (nbrRegion neighbors).length = vectors.length * m * 4 ∧
    (∀ bs, build_binary d m vectors neighbors entry ef = some bs →
      bs.length = 36 + vectors.length * d + vectors.length * 4 +
        vectors.length * m * 4) := by
  have heq : build_binary d m vectors neighbors entry ef =
      some (annHeader d m vectors.length entry ef (quantScale vectors) ++
        qRegion vectors ++ normRegion vectors ++ nbrRegion neighbors) := by
    unfold build_binary
    rw [if_neg hne]
  have hq : (qRegion vectors).length = vectors.length * d := by
    unfold qRegion
    rw [List.length_map]
    rw [flatten_length_const (d := d) ?_]
    · unfold quantCodes
      rw [List.length_map]
    · intro v hv
      obtain ⟨w, hw, rfl⟩ := List.mem_map.mp hv
      rw [List.length_map]
      exact hd w hw
  have hnorm : (normRegion vectors).length = vectors.length * 4 := by
    unfold normRegion
    rw [flatten_length_const (d := 4) ?_]
    · rw [List.length_map]
    · intro v hv
      obtain ⟨w, _, rfl⟩ := List.mem_map.mp hv
      exact f32le_length _
  have hnbr : (nbrRegion neighbors).length = vectors.length * m * 4 := by
    unfold nbrRegion
    rw [flatten_length_const (d := 4) ?_]
    · rw [List.length_map, flatten_length_const hm, hnm]
    · intro v hv
      obtain ⟨z, _, rfl⟩ := List.mem_map.mp hv
      exact u32le_length _
  refine ⟨heq, annHeader_length _ _ _ _ _ _, hq, hnorm, hnbr, ?_⟩
  intro bs hbs
  rw [heq] at hbs
  have hbs' : bs = annHeader d m vectors.length entry ef (quantScale vectors) ++
      qRegion vectors ++ normRegion vectors ++ nbrRegion neighbors :=
    (Option.some.injEq _ _ ▸ hbs).symm
  rw [hbs']
  rw [List.length_append, List.length_append, List.length_append,
    annHeader_length, hq, hnorm, hnbr]

/-- C4 witness: a one-node artifact in dimension 2 with out-degree 4;
`36 + 1·2 + 4·1 + 4·1·4 = 58` bytes. -/
theorem C4_thm_witness :
    (([[(1:ℚ), 0]] : List (List ℚ)) ≠ [] ∧
      (∀ v ∈ [[(1:ℚ), 0]], v.length = 2) ∧
      (∀ r ∈ [[(-1:ℤ), -1, -1, -1]], r.length = 4) ∧
      ([[(-1:ℤ), -1, -1, -1]] : List (List ℤ)).length =
        ([[(1:ℚ), 0]] : List (List ℚ)).length) ∧
    (build_binary 2 4 [[(1:ℚ), 0]] [[(-1:ℤ), -1, -1, -1]] 0 16 =
      some (annHeader 2 4 ([[(1:ℚ), 0]] : List (List ℚ)).length 0 16
          (quantScale [[(1:ℚ), 0]]) ++
        qRegion [[(1:ℚ), 0]] ++ normRegion [[(1:ℚ), 0]] ++
        nbrRegion [[(-1:ℤ), -1, -1, -1]]) ∧
    (annHeader 2 4 ([[(1:ℚ), 0]] : List (List ℚ)).length 0 16
        (quantScale [[(1:ℚ), 0]])).length = 36 ∧
    (qRegion [[(1:ℚ), 0]]).length = ([[(1:ℚ), 0]] : List (List ℚ)).length * 2 ∧
    (normRegion [[(1:ℚ), 0]]).length = ([[(1:ℚ), 0]] : List (List ℚ)).length * 4 ∧
    (nbrRegion [[(-1:ℤ), -1, -1, -1]]).length =
      ([[(1:ℚ), 0]] : List (List ℚ)).length * 4 * 4 ∧
    (∀ bs, build_binary 2 4 [[(1:ℚ), 0]] [[(-1:ℤ), -1, -1, -1]] 0 16 = some bs →
      bs.length = 36 + ([[(1:ℚ), 0]] : List (List ℚ)).length * 2 +
        ([[(1:ℚ), 0]] : List (List ℚ)).length * 4 +
        ([[(1:ℚ), 0]] : List (List ℚ)).length * 4 * 4)) :=
  ⟨⟨by simp, by simp, by simp, by simp⟩,
   C4_thm 2 4 [[(1:ℚ), 0]] [[(-1:ℤ), -1, -1, -1]] 0 16
     (by simp) (by simp) (by simp) (by simp)⟩

/-! ### Aggregator (Scripts/bin_to_routing_with_semantic_labels.py,
lines 264-391; Scripts/routing.py lines 77-194 implements the same
algorithm without the summary-text fields)

Vector components are real numbers here because `np.linalg.norm` takes a
square root.  Fields that no claim concerns (`section_id`/`title` string
formatting, `summary_texts`, `document_metadata` id/filename) are omitted
from the model; a chunk that is not a dict, or whose `embedding` is not a
non-empty list, or whose `np.asarray` fails, or whose array is not 1-D, is
uniformly represented by an empty `embedding` (all those cases `continue`
without touching the state). -/

/-- Model of `l2_normalize` (bin_to_routing_with_semantic_labels.py 91-95): returns
`None` when the Euclidean norm is `≤ 0`.  The `not np.isfinite(norm)` arm
cannot fire in a real-number model, where every norm is finite. -/
noncomputable def l2_normalize (v : List ℝ) : Option (List ℝ) :=
  if Real.sqrt (sumSq v) ≤ 0 then none
  else some (v.map (fun x => x / Real.sqrt (sumSq v)))

/-- Model of `to_int_page(value, default=1)` (lines 113-118): non-positive, missing
or unparsable pages fall back to 1. -/
def to_int_page (v : Option ℤ) : ℕ :=
  match v with
  | none => 1
  | some p => if 0 < p then p.toNat else 1

/-- The fields of a `chunks` entry read by the aggregation loop. -/
structure ChunkIn where
  embedding : List ℝ
  page : Option ℤ
  id : Option String

/-- Running per-bucket state (`sections[sec_idx]`, lines 321-334). -/
structure SecState where
  sum : List ℝ
  count : ℕ
  page_start : ℕ
  page_end : ℕ
  chunk_ids : List String

/-- Running per-document state of the chunk loop (lines 280-285).
`sections` is the dict keyed by `sec_idx`, as an association list. -/
structure AggState where
  book_dim : Option ℕ
  book_sum : Option (List ℝ)
  book_count : ℕ
  max_page_seen : ℕ
  sections : List (ℕ × SecState)

def zeroVec (d : ℕ) : List ℝ := List.replicate d 0

def addVec (u v : List ℝ) : List ℝ := List.zipWith (· + ·) u v

noncomputable def divVec (v : List ℝ) (c : ℝ) : List ℝ := v.map (fun x => x / c)

/-- Assignment `sections[sec_idx] = sec` on the association list. -/
def updateAssoc (l : List (ℕ × SecState)) (k : ℕ) (s : SecState) :
    List (ℕ × SecState) :=
  match l with
  | [] => [(k, s)]
  | (k', s') :: t => if k' = k then (k, s) :: t else (k', s') :: updateAssoc t k s

/-- The body of `for ch in chunks` (lines 287-343).  Note the source sets
`book_dim` and initializes `book_sum` to zeros BEFORE calling
`l2_normalize`, so even an unusable chunk establishes the document's
dimension. -/
noncomputable def aggStep (sp : ℕ) (st : AggState) (ch : ChunkIn) : AggState :=
  if ch.embedding = [] then st
  else if st.book_dim.getD ch.embedding.length ≠ ch.embedding.length then st
  else
    let d := ch.embedding.length
    let st1 : AggState := { st with
      book_dim := some d
      book_sum := some (st.book_sum.getD (zeroVec d)) }
    match l2_normalize ch.embedding with
    | none => st1
    | some nvec =>
      let page := to_int_page ch.page
      let secIdx := (page - 1) / sp
      let sec := (st1.sections.lookup secIdx).getD
        ⟨zeroVec d, 0, secIdx * sp + 1, (secIdx + 1) * sp, []⟩
      let sec' : SecState := { sec with
        sum := addVec sec.sum nvec,
        count := sec.count + 1,
        chunk_ids := sec.chunk_ids ++ (match ch.id with
          | some cid => [cid]
          | none => []) }
      { book_dim := some d,
        book_sum := some (addVec (st1.book_sum.getD (zeroVec d)) nvec),
        book_count := st1.book_count + 1,
        max_page_seen := max st1.max_page_seen page,
        sections := updateAssoc st1.sections secIdx sec' }

/-- An emitted `SectionAggregate` (lines 371-380), page-range and content
fields only. -/
structure SectionOut where
  page_start : ℕ
  page_end : ℕ
  chunk_count : ℕ
  chunk_ids : List String
  vector : List ℝ

/-- The `for sec_idx in sorted(sections.keys())` emission loop
(lines 355-380): buckets below `min_chunks` or whose mean fails to
normalize are silently dropped. -/
noncomputable def finalizeSections (minc : ℕ) (secs : List (ℕ × SecState)) :
    List SectionOut :=
  (List.insertionSort (fun a b => a ≤ b) (secs.map Prod.fst)).filterMap (fun k =>
    match secs.lookup k with
    | none => none
    | some sec =>
      if sec.count < minc then none
      else
        match l2_normalize (divVec sec.sum (sec.count : ℝ)) with
        | none => none
        | some sv => some ⟨sec.page_start, sec.page_end, sec.count, sec.chunk_ids, sv⟩)

/-- One package `.bin` as the loop sees it. -/
structure Package where
  name : String
  chunks : List ChunkIn
  page_count_meta : ℕ

/-- An emitted `BookAggregate` (lines 382-391), claim-relevant fields. -/
structure BookOut where
  dim : ℕ
  chunk_count : ℕ
  page_count : ℕ
  book_vector : List ℝ
  sections : List SectionOut

def initAgg : AggState := ⟨none, none, 0, 1, []⟩

/-- One document: the body of `for bin_path in bin_files` (lines 264-391).
`Except.error` carries the reason string appended to `skipped`. -/
noncomputable def processOne (sp minc : ℕ) (pkg : Package) :
    Except String BookOut :=
  if pkg.chunks.isEmpty then Except.error "no chunks"
  else
    let st := pkg.chunks.foldl (aggStep sp) initAgg
    if st.book_count = 0 ∨ st.book_dim = none ∨ st.book_sum = none then
      Except.error "no usable embeddings"
    else
      match l2_normalize (divVec (st.book_sum.getD []) (st.book_count : ℝ)) with
      | none => Except.error "failed book vector normalization"
      | some bv =>
        Except.ok ⟨st.book_dim.getD 0, st.book_count,
          (if 0 < pkg.page_count_meta then pkg.page_count_meta else st.max_page_seen),
          bv, finalizeSections minc st.sections⟩

/-- One iteration of the batch loop: append the book, or record the skip
reason, and continue. -/
noncomputable def processStep (sp minc : ℕ)
    (acc : List BookOut × List String) (pkg : Package) :
    List BookOut × List String :=
  match processOne sp minc pkg with
  | Except.ok b => (acc.1 ++ [b], acc.2)
  | Except.error e => (acc.1, acc.2 ++ [pkg.name ++ ": " ++ e])

/-- The whole batch loop over `bin_files`. -/
noncomputable def processAll (sp minc : ℕ) (pkgs : List Package) :
    List BookOut × List String :=
  pkgs.foldl (processStep sp minc) ([], [])

/-- The ANN pipeline's pre-graph normalization
(Scripts/build_ann_index.py 236-239):

```
norms = np.linalg.norm(vectors, axis=1, keepdims=True)
norms[norms == 0] = 1.0
vectors = vectors / norms
```

Zero-norm rows are KEPT (divided by the substituted 1.0), not dropped. -/
noncomputable def graphNormalize (vectors : List (List ℝ)) : List (List ℝ) :=
  vectors.map (fun v =>
    v.map (fun x => x / (if Real.sqrt (sumSq v) = 0 then 1 else Real.sqrt (sumSq v))))

/-- C10 witness: row 0 of Scenario A's graph has valid, distinct non-`-1`
entries. -/
theorem C10_thm_witness :
    (2 ≤ exVecs.length ∧ ([1,2,-1,-1] : List ℤ) ∈ chunked_knn_graph exVecs 4 512) ∧
    ((∀ z ∈ ([1,2,-1,-1] : List ℤ), z ≠ -1 → 0 ≤ z ∧ z < (exVecs.length : ℤ)) ∧
      (([1,2,-1,-1] : List ℤ).filter (fun z => decide (z ≠ -1))).Nodup) :=
  ⟨⟨by norm_num [exVecs], by rw [graph_exVecs_eval]; simp⟩,
   C10_thm exVecs 4 512 (by norm_num [exVecs]) _ (by rw [graph_exVecs_eval]; simp)⟩

/-! ### Aggregator lemmas -/

theorem l2_normalize_eq_none {v : List ℝ} : l2_normalize v = none ↔ sumSq v ≤ 0 := by
  have key : Real.sqrt (sumSq v) ≤ 0 ↔ sumSq v ≤ 0 := by
    constructor
    · intro h
      exact Real.sqrt_eq_zero'.mp (le_antisymm h (Real.sqrt_nonneg _))
    · intro h
      rw [Real.sqrt_eq_zero'.mpr h]
  unfold l2_normalize
  split_ifs with h
  · simpa using key.mp h
  · constructor
    · intro hx
      exact hx.elim
    · intro hx
      exact absurd (key.mpr hx) h

theorem sumSq_zero2 : sumSq [(0:ℝ), 0] = 0 := by norm_num [sumSq]

theorem sumSq_e1 : sumSq [(1:ℝ), 0] = 1 := by norm_num [sumSq]

theorem l2_normalize_zero2 : l2_normalize [(0:ℝ), 0] = none :=
  l2_normalize_eq_none.mpr (le_of_eq sumSq_zero2)

theorem l2_normalize_e1 : l2_normalize [(1:ℝ), 0] = some [1, 0] := by
  unfold l2_normalize
  rw [sumSq_e1, Real.sqrt_one]
  norm_num

theorem mem_updateAssoc {l : List (ℕ × SecState)} {k : ℕ} {s : SecState}
    {p : ℕ × SecState} (h : p ∈ updateAssoc l k s) : p = (k, s) ∨ p ∈ l := by
  induction l with
  | nil => simpa [updateAssoc] using h
  | cons a t ih =>
    obtain ⟨k', s'⟩ := a
    simp only [updateAssoc] at h
    by_cases hk : k' = k
    · rw [if_pos hk] at h
      rcases List.mem_cons.mp h with h1 | h1
      · exact Or.inl h1
      · exact Or.inr (List.mem_cons_of_mem _ h1)
    · rw [if_neg hk] at h
      rcases List.mem_cons.mp h with h1 | h1
      · exact Or.inr (h1 ▸ List.mem_cons_self _ _)
      · rcases ih h1 with h2 | h2
        · exact Or.inl h2
        · exact Or.inr (List.mem_cons_of_mem _ h2)

theorem lookup_mem : ∀ {l : List (ℕ × SecState)} {k : ℕ} {s : SecState},
    l.lookup k = some s → (k, s) ∈ l := by
  intro l
  induction l with
  | nil => intro k s h; cases h
  | cons a t ih =>
    intro k s h
    obtain ⟨k', s'⟩ := a
    by_cases hk : k = k'
    · subst hk
      simp only [List.lookup_cons, beq_self_eq_true] at h
      exact (Option.some_inj.mp h) ▸ List.mem_cons_self _ _
    · simp only [List.lookup_cons, beq_false_of_ne hk] at h
      exact List.mem_cons_of_mem _ (ih h)

theorem lookup_updateAssoc_self (l : List (ℕ × SecState)) (k : ℕ) (s : SecState) :
    (updateAssoc l k s).lookup k = some s := by
  induction l with
  | nil => simp [updateAssoc, List.lookup]
  | cons a t ih =>
    obtain ⟨k', s'⟩ := a
    simp only [updateAssoc]
    by_cases hk : k' = k
    · rw [if_pos hk]
      simp [List.lookup_cons]
    · rw [if_neg hk]
      simp only [List.lookup_cons, beq_false_of_ne (fun h => hk h.symm)]
      exact ih

theorem lookup_updateAssoc_ne (l : List (ℕ × SecState)) (k : ℕ) (s : SecState)
    {q : ℕ} (hq : q ≠ k) : (updateAssoc l k s).lookup q = l.lookup q := by
  induction l with
  | nil =>
    simp only [updateAssoc, List.lookup_cons, List.lookup_nil,
      beq_false_of_ne hq]
  | cons a t ih =>
    obtain ⟨k', s'⟩ := a
    simp only [updateAssoc]
    by_cases hk : k' = k
    · rw [if_pos hk]
      have hq' : q ≠ k' := fun h => hq (h.trans hk)
      simp only [List.lookup_cons, beq_false_of_ne hq, beq_false_of_ne hq']
    · rw [if_neg hk]
      by_cases hq' : q = k'
      · subst hq'
        simp only [List.lookup_cons, beq_self_eq_true]
      · simp only [List.lookup_cons, beq_false_of_ne hq']
        exact ih

/-- Per-bucket chunk count, read off the running state. -/
def secCount (l : List (ℕ × SecState)) (k : ℕ) : ℕ :=
  ((l.lookup k).map SecState.count).getD 0

/-- An unusable chunk (`norm ≤ 0`) contributes nothing to the running
counts, sums or buckets; the only state it can touch is establishing
`book_dim` and the zero-initialized `book_sum` (which the source sets
before calling `l2_normalize`). -/
theorem aggStep_unusable (sp : ℕ) (st : AggState) (ch : ChunkIn)
    (h : sumSq ch.embedding ≤ 0) :
    (aggStep sp st ch).book_count = st.book_count ∧
    (aggStep sp st ch).sections = st.sections ∧
    (aggStep sp st ch).max_page_seen = st.max_page_seen ∧
    ((aggStep sp st ch).book_sum = st.book_sum ∨
      (st.book_sum = none ∧
        (aggStep sp st ch).book_sum = some (zeroVec ch.embedding.length))) := by
  have hn : l2_normalize ch.embedding = none := l2_normalize_eq_none.mpr h
  unfold aggStep
  split_ifs with h1 h2
  · exact ⟨rfl, rfl, rfl, Or.inl rfl⟩
  · exact ⟨rfl, rfl, rfl, Or.inl rfl⟩
  · simp only [hn, true_and]
    cases hbs : st.book_sum with
    | none => exact Or.inr ⟨rfl, by simp [hbs]⟩
    | some s => exact Or.inl (by simp [hbs])

/-- Every bucket ever present in the running state carries the page range
`[sec_idx*sp + 1, (sec_idx+1)*sp]`. -/
theorem aggStep_inv (sp : ℕ) (st : AggState) (ch : ChunkIn)
    (h0 : ∀ p ∈ st.sections, p.2.page_start = p.1 * sp + 1 ∧
      p.2.page_end = (p.1 + 1) * sp) :
    ∀ p ∈ (aggStep sp st ch).sections, p.2.page_start = p.1 * sp + 1 ∧
      p.2.page_end = (p.1 + 1) * sp := by
  unfold aggStep
  split_ifs with h1 h2
  · exact h0
  · exact h0
  · cases hn : l2_normalize ch.embedding with
    | none => simpa only [hn] using h0
    | some nvec =>
      simp only [hn]
      intro p hp
      rcases mem_updateAssoc hp with hpe | hmem
      · subst hpe
        cases hlk : st.sections.lookup ((to_int_page ch.page - 1) / sp) with
        | none => simp [hlk]
        | some s0 =>
          have hfields := h0 _ (lookup_mem hlk)
          simp only [hlk]
          exact ⟨hfields.1, hfields.2⟩
      · exact h0 _ hmem

theorem fold_sections_inv (sp : ℕ) (chunks : List ChunkIn) :
    ∀ p ∈ (chunks.foldl (aggStep sp) initAgg).sections,
      p.2.page_start = p.1 * sp + 1 ∧ p.2.page_end = (p.1 + 1) * sp := by
  have hgen : ∀ (l : List ChunkIn) (st : AggState),
      (∀ p ∈ st.sections, p.2.page_start = p.1 * sp + 1 ∧
        p.2.page_end = (p.1 + 1) * sp) →
      ∀ p ∈ (l.foldl (aggStep sp) st).sections,
        p.2.page_start = p.1 * sp + 1 ∧ p.2.page_end = (p.1 + 1) * sp := by
    intro l
    induction l with
    | nil =>
      intro st h0
      simpa using h0
    | cons c t ih =>
      intro st h0
      rw [List.foldl_cons]
      exact ih _ (aggStep_inv sp st c h0)
  exact hgen chunks initAgg (by simp [initAgg])

/-- A usable chunk is charged to exactly the bucket
`(page - 1) / sectionPages`: that count rises by one, all other buckets
are untouched, and the book count rises by one. -/
theorem aggStep_usable (sp : ℕ) (st : AggState) (ch : ChunkIn) (nvec : List ℝ)
    (hemb : ch.embedding ≠ [])
    (hdim : st.book_dim.getD ch.embedding.length = ch.embedding.length)
    (hnorm : l2_normalize ch.embedding = some nvec) :
    (aggStep sp st ch).book_count = st.book_count + 1 ∧
    secCount (aggStep sp st ch).sections ((to_int_page ch.page - 1) / sp) =
      secCount st.sections ((to_int_page ch.page - 1) / sp) + 1 ∧
    (∀ k, k ≠ (to_int_page ch.page - 1) / sp →
      secCount (aggStep sp st ch).sections k = secCount st.sections k) := by
  unfold aggStep
  rw [if_neg hemb, if_neg (fun hC => hC hdim)]
  simp only [hnorm, true_and]
  refine ⟨?_, ?_⟩
  · unfold secCount
    rw [lookup_updateAssoc_self]
    cases hlk : st.sections.lookup ((to_int_page ch.page - 1) / sp) with
    | none => simp [hlk]
    | some s0 => simp [hlk]
  · intro k hk
    unfold secCount
    rw [lookup_updateAssoc_ne _ _ _ hk]

theorem fold_count_unusable (sp : ℕ) (chunks : List ChunkIn) :
    ∀ st : AggState, (∀ c ∈ chunks, sumSq c.embedding ≤ 0) →
      (chunks.foldl (aggStep sp) st).book_count = st.book_count := by
  induction chunks with
  | nil =>
    intro st _
    rfl
  | cons c t ih =>
    intro st h
    rw [List.foldl_cons, ih _ (fun x hx => h x (List.mem_cons_of_mem c hx))]
    exact (aggStep_unusable sp st c (h c (List.mem_cons_self c t))).1

/-- A document with chunks but no usable vector is skipped with the
`no usable embeddings` reason. -/
theorem processOne_no_usable (sp minc : ℕ) (pkg : Package)
    (hch : pkg.chunks ≠ []) (h : ∀ c ∈ pkg.chunks, sumSq c.embedding ≤ 0) :
    processOne sp minc pkg = Except.error "no usable embeddings" := by
  unfold processOne
  rw [if_neg (by simpa [List.isEmpty_iff] using hch)]
  have hcnt := fold_count_unusable sp pkg.chunks initAgg h
  rw [if_pos (Or.inl (by rw [hcnt]; rfl))]

theorem processStep_go (sp minc : ℕ) (l : List Package)
    (acc : List BookOut × List String) :
    l.foldl (processStep sp minc) acc =
      (acc.1 ++ (l.foldl (processStep sp minc) ([], [])).1,
       acc.2 ++ (l.foldl (processStep sp minc) ([], [])).2) := by
  induction l generalizing acc with
  | nil => simp
  | cons p t ih =>
    rw [List.foldl_cons, List.foldl_cons, ih (processStep sp minc acc p),
      ih (processStep sp minc ([], []) p)]
    unfold processStep
    cases processOne sp minc p <;> simp

/-- Scenario B's single chunk: unit embedding, page 5. -/
noncomputable def scenChunk : ChunkIn := ⟨[1, 0], some 5, some "c0"⟩

/-- Scenario B's document (no `page_count` metadata). -/
noncomputable def scenPkg : Package := ⟨"bookA", [scenChunk], 0⟩

theorem aggStep_scen : aggStep 20 initAgg scenChunk =
    ⟨some 2, some [1, 0], 1, 5, [(0, ⟨[1, 0], 1, 1, 20, ["c0"]⟩)]⟩ := by
  unfold aggStep
  rw [if_neg (by simp [scenChunk]), if_neg (by simp [scenChunk, initAgg])]
  norm_num [scenChunk, initAgg, l2_normalize_e1, to_int_page, updateAssoc,
    addVec, zeroVec, List.lookup_nil, List.replicate]
  decide

theorem finalize_scen :
    finalizeSections 1 [(0, ⟨[1, 0], 1, 1, 20, ["c0"]⟩)] =
      [⟨1, 20, 1, ["c0"], [1, 0]⟩] := by
  unfold finalizeSections
  norm_num [List.insertionSort, List.orderedInsert, List.lookup_cons, divVec,
    l2_normalize_e1, List.filterMap_cons, List.filterMap_nil]

theorem processOne_scen : processOne 20 1 scenPkg =
    Except.ok ⟨2, 1, 5, [1, 0], [⟨1, 20, 1, ["c0"], [1, 0]⟩]⟩ := by
  have hfold : scenPkg.chunks.foldl (aggStep 20) initAgg =
      ⟨some 2, some [1, 0], 1, 5, [(0, ⟨[1, 0], 1, 1, 20, ["c0"]⟩)]⟩ := by
    simp only [scenPkg, List.foldl_cons, List.foldl_nil]
    exact aggStep_scen
  unfold processOne
  rw [if_neg (by simp [scenPkg])]
  simp only [hfold]
  rw [if_neg (by simp)]
  norm_num [divVec, l2_normalize_e1, finalize_scen, scenPkg]

/-- C2 (amended).  `l2_normalize` rejects every vector of non-positive
norm, and such a chunk contributes nothing to the chunk counts, bucket
contents or running sums of the aggregation path; but the ANN-graph path
does NOT exclude it: `build_ann_index.py` substitutes norm 1.0 for zero
norms and keeps the vector as a graph node. -/
theorem C2_thm :
    (∀ v : List ℝ, sumSq v ≤ 0 → l2_normalize v = none) ∧
    (∀ (sp : ℕ) (st : AggState) (ch : ChunkIn), sumSq ch.embedding ≤ 0 →
      (aggStep sp st ch).book_count = st.book_count ∧
      (aggStep sp st ch).sections = st.sections ∧
      ((aggStep sp st ch).book_sum = st.book_sum ∨
        (st.book_sum = none ∧
          (aggStep sp st ch).book_sum = some (zeroVec ch.embedding.length)))) ∧
    (∀ vs : List (List ℝ), (graphNormalize vs).length = vs.length) := by
  refine ⟨fun v hv => l2_normalize_eq_none.mpr hv, ?_, ?_⟩
  · intro sp st ch h
    obtain ⟨h1, h2, _, h4⟩ := aggStep_unusable sp st ch h
    exact ⟨h1, h2, h4⟩
  · intro vs
    simp [graphNormalize]

/-- C2 witness: the zero vector is rejected by `l2_normalize`, leaves the
aggregation state's count unchanged, and `graphNormalize` keeps one row
per input row. -/
theorem C2_thm_witness :
    sumSq [(0:ℝ), 0] ≤ 0 ∧
    l2_normalize [(0:ℝ), 0] = none ∧
    (aggStep 20 initAgg ⟨[0, 0], none, none⟩).book_count = initAgg.book_count ∧
    (graphNormalize [[(0:ℝ), 0], [1, 0]]).length =
      ([[(0:ℝ), 0], [1, 0]] : List (List ℝ)).length :=
  ⟨le_of_eq sumSq_zero2,
   C2_thm.1 _ (le_of_eq sumSq_zero2),
   (C2_thm.2.1 20 initAgg ⟨[0, 0], none, none⟩ (le_of_eq sumSq_zero2)).1,
   C2_thm.2.2 _⟩

/-- C2 counterexample.  The zero vector `[0,0]` has norm `≤ 0`, yet in the
ANN pipeline it is NOT excluded from the graph: after the main loop's
normalization (which substitutes norm 1.0) it is still one of the 2 graph
nodes, and node 1's neighbor list contains it. -/
theorem C2_cex :
    sumSq [(0:ℝ), 0] ≤ 0 ∧
    l2_normalize [(0:ℝ), 0] = none ∧
    graphNormalize [[(0:ℝ), 0], [1, 0]] = [[0, 0], [1, 0]] ∧
    (chunked_knn_graph [[(0:ℚ), 0], [1, 0]] 4 512).length = 2 ∧
    (0 : ℤ) ∈ (chunked_knn_graph [[(0:ℚ), 0], [1, 0]] 4 512).getD 1 [] := by
  refine ⟨le_of_eq sumSq_zero2, l2_normalize_zero2, ?_, ?_, ?_⟩
  · norm_num [graphNormalize, sumSq, Real.sqrt_zero, Real.sqrt_one]
  · norm_num [chunked_knn_graph]
  · norm_num [chunked_knn_graph, knnRow, rowEntries, sortedIdx,
      List.insertionSort, List.orderedInsert, nbrRel, simRow, dot,
      List.range_succ, bot_lt_iff_ne_bot, List.getD, List.replicate]

/-- C8.  Every running bucket with key `sec_idx` has page range
`[sec_idx*sectionPages + 1, (sec_idx+1)*sectionPages]`; a usable chunk is
charged to exactly the bucket `(page - 1) / sectionPages`; and Scenario B
(single valid chunk, page 5, sectionPages 20, minChunksPerSection 1)
yields exactly one section with `page_start = 1`, `page_end = 20`. -/
theorem C8_thm (sp : ℕ) :
    (∀ (chunks : List ChunkIn) (p : ℕ × SecState),
      p ∈ (chunks.foldl (aggStep sp) initAgg).sections →
      p.2.page_start = p.1 * sp + 1 ∧ p.2.page_end = (p.1 + 1) * sp) ∧
    (∀ (st : AggState) (ch : ChunkIn) (nvec : List ℝ),
      ch.embedding ≠ [] →
      st.book_dim.getD ch.embedding.length = ch.embedding.length →
      l2_normalize ch.embedding = some nvec →
      secCount (aggStep sp st ch).sections ((to_int_page ch.page - 1) / sp) =
        secCount st.sections ((to_int_page ch.page - 1) / sp) + 1 ∧
      (∀ k, k ≠ (to_int_page ch.page - 1) / sp →
        secCount (aggStep sp st ch).sections k = secCount st.sections k)) ∧
    processOne 20 1 scenPkg =
      Except.ok ⟨2, 1, 5, [1, 0], [⟨1, 20, 1, ["c0"], [1, 0]⟩]⟩ := by
  refine ⟨fun chunks p hp => fold_sections_inv sp chunks p hp, ?_, processOne_scen⟩
  intro st ch nvec h1 h2 h3
  exact (aggStep_usable sp st ch nvec h1 h2 h3).2

/-- C8 witness: the scenario bucket with key 0 satisfies the range formula,
the scenario chunk is charged to bucket `(5-1)/20 = 0`, and the scenario
document produces the expected single section. -/
theorem C8_thm_witness :
    ((0, (⟨[1, 0], 1, 1, 20, ["c0"]⟩ : SecState)) ∈
        ([scenChunk].foldl (aggStep 20) initAgg).sections ∧
      scenChunk.embedding ≠ [] ∧
      initAgg.book_dim.getD scenChunk.embedding.length =
        scenChunk.embedding.length ∧
      l2_normalize scenChunk.embedding = some [1, 0]) ∧
    ((⟨[1, 0], 1, 1, 20, ["c0"]⟩ : SecState).page_start = 0 * 20 + 1 ∧
      (⟨[1, 0], 1, 1, 20, ["c0"]⟩ : SecState).page_end = (0 + 1) * 20) ∧
    secCount (aggStep 20 initAgg scenChunk).sections
        ((to_int_page scenChunk.page - 1) / 20) =
      secCount initAgg.sections ((to_int_page scenChunk.page - 1) / 20) + 1 ∧
    processOne 20 1 scenPkg =
      Except.ok ⟨2, 1, 5, [1, 0], [⟨1, 20, 1, ["c0"], [1, 0]⟩]⟩ := by
  have hmem : (0, (⟨[1, 0], 1, 1, 20, ["c0"]⟩ : SecState)) ∈
      ([scenChunk].foldl (aggStep 20) initAgg).sections := by
    rw [List.foldl_cons, List.foldl_nil, aggStep_scen]
    simp
  have h1 : scenChunk.embedding ≠ [] := by simp [scenChunk]
  have h2 : initAgg.book_dim.getD scenChunk.embedding.length =
      scenChunk.embedding.length := by simp [scenChunk, initAgg]
  have h3 : l2_normalize scenChunk.embedding = some [1, 0] := l2_normalize_e1
  exact ⟨⟨hmem, h1, h2, h3⟩,
    (C8_thm 20).1 [scenChunk] _ hmem,
    ((C8_thm 20).2.1 initAgg scenChunk [1, 0] h1 h2 h3).1,
    (C8_thm 20).2.2⟩

/-- C9.  A document with chunks but zero usable vectors is skipped with
reason `no usable embeddings`: it produces no book, while the books of the
remaining documents in the batch are exactly those produced without it. -/
theorem C9_thm (sp minc : ℕ) (bad : Package) (xs ys : List Package)
    (hch : bad.chunks ≠ []) (h : ∀ c ∈ bad.chunks, sumSq c.embedding ≤ 0) :
    processOne sp minc bad = Except.error "no usable embeddings" ∧
    (processAll sp minc (xs ++ bad :: ys)).1 = (processAll sp minc (xs ++ ys)).1 ∧
    (bad.name ++ ": " ++ "no usable embeddings") ∈
      (processAll sp minc (xs ++ bad :: ys)).2 := by
  have hone := processOne_no_usable sp minc bad hch h
  have hstepbad : ∀ acc, processStep sp minc acc bad =
      (acc.1, acc.2 ++ [bad.name ++ ": " ++ "no usable embeddings"]) := by
    intro acc
    unfold processStep
    rw [hone]
  refine ⟨hone, ?_, ?_⟩
  · unfold processAll
    rw [List.foldl_append, List.foldl_append, List.foldl_cons, hstepbad,
      processStep_go sp minc ys
        ((List.foldl (processStep sp minc) ([], []) xs).1,
         (List.foldl (processStep sp minc) ([], []) xs).2 ++
           [bad.name ++ ": " ++ "no usable embeddings"]),
      processStep_go sp minc ys (List.foldl (processStep sp minc) ([], []) xs)]
  · unfold processAll
    rw [List.foldl_append, List.foldl_cons, hstepbad,
      processStep_go sp minc ys
        ((List.foldl (processStep sp minc) ([], []) xs).1,
         (List.foldl (processStep sp minc) ([], []) xs).2 ++
           [bad.name ++ ": " ++ "no usable embeddings"])]
    simp

/-- A document whose single chunk is the zero vector. -/
noncomputable def badChunk : ChunkIn := ⟨[0, 0], none, none⟩

noncomputable def badPkg : Package := ⟨"badbook", [badChunk], 0⟩

/-- C9 witness: the all-zero document is skipped and the batch's books are
the ones of the remaining document alone. -/
theorem C9_thm_witness :
    (badPkg.chunks ≠ [] ∧ ∀ c ∈ badPkg.chunks, sumSq c.embedding ≤ 0) ∧
    (processOne 7 1 badPkg = Except.error "no usable embeddings" ∧
      (processAll 7 1 ([] ++ badPkg :: [scenPkg])).1 =
        (processAll 7 1 ([] ++ [scenPkg])).1 ∧
      (badPkg.name ++ ": " ++ "no usable embeddings") ∈
        (processAll 7 1 ([] ++ badPkg :: [scenPkg])).2) := by
  have hch : badPkg.chunks ≠ [] := by simp [badPkg]
  have h : ∀ c ∈ badPkg.chunks, sumSq c.embedding ≤ 0 := by
    intro c hc
    rw [show badPkg.chunks = [badChunk] from rfl, List.mem_singleton] at hc
    subst hc
    exact le_of_eq sumSq_zero2
  exact ⟨⟨hch, h⟩, C9_thm 7 1 badPkg [] [scenPkg] hch h⟩

end BetterDocs
